import Mathlib

/-!
# Template-to-source slice alignment engine: verification

This file formalises the slice-alignment core of the repository: the raw
lexer, the occurrence indexer, the invariant splitter, the compound resolver
and the boundary trimmer, together with the undefined-variable tracking
sentinels (`UndefinedRecorder`, `DummyUndefined`) and the `process` error
routing from `crates/lib/src/templaters/working_on_translating/actual_template_code.py`.

The alignment engine itself (`PythonTemplater` with `_slice_template`,
`_substring_occurrences`, `_split_invariants`, `_split_uniques_coalesce_rest`
and `IntermediateFileSlice.trim_ends`) is exercised by
`crates/lib/src/templaters/sqruff_templaters/python_templater_test.py` but its
implementation module is not part of the source tree here, so those
definitions are modelled from the specification (each such definition carries
a doc comment starting `Modelled from the spec:`).

Strings are modelled as `List Char`; offsets and ranges are `Nat` with
half-open `[start, stop)` ranges, matching Python `slice(start, stop)`.
-/

/-- The span/slice classification used by the engine: literal text, a
templated expression, block start/end directives, an escaped delimiter and
comments.  Matches the `slice_type` strings `"literal"`, `"templated"`,
`"block_start"`, `"block_end"`, `"escaped"`, `"comment"` of the test file. -/
inductive SliceKind where
  | literal
  | templated
  | blockStart
  | blockEnd
  | escaped
  | comment
  deriving DecidableEq, Repr

/-- A raw span produced by the Raw Lexer: its text, its kind and its starting
offset in the raw file (`RawFileSlice(raw, slice_type, source_idx)` in the
test file). -/
structure RawFileSlice where
  raw : List Char
  kind : SliceKind
  sourceIdx : Nat
  deriving DecidableEq, Repr

/-- A half-open range `[start, stop)`, the model of a Python `slice(a, b)`. -/
structure Rng where
  start : Nat
  stop : Nat
  deriving DecidableEq, Repr

/-- A mapping slice of the final output: a kind, a source range over the raw
text and a rendered range over the templated text
(`TemplatedFileSlice(slice_type, source_slice, templated_slice)`). -/
structure TemplatedFileSlice where
  kind : SliceKind
  sourceSlice : Rng
  templatedSlice : Rng
  deriving DecidableEq, Repr

/-- Resolution state of an intermediate fragment (`"invariant"`,
`"compound"`, `"simple"` in the test file). -/
inductive Resolution where
  | invariant
  | compound
  | simple
  deriving DecidableEq, Repr

/-- A transient working fragment of the alignment algorithm
(`IntermediateFileSlice(intermediate_type, source_slice, templated_slice,
slice_buffer)`). -/
structure IntermediateFileSlice where
  resolution : Resolution
  sourceSlice : Rng
  templatedSlice : Rng
  sliceBuffer : List RawFileSlice
  deriving DecidableEq, Repr

/-! ## Raw Lexer -/

/-- Lexer mode of the single pass over the raw text: plain literal scanning,
just after a lone `}` (a second one makes the escaped `}}`), or inside a
`{...}` expression field accumulating its body. -/
inductive LexMode where
  | plain
  | sawClose
  | field (acc : List Char)
  deriving DecidableEq, Repr

/-- The characters currently buffered by a lexer mode (what the mode would
contribute as literal text if the input ended now). -/
def LexMode.chars : LexMode → List Char
  | .plain => []
  | .sawClose => ['}']
  | .field acc => '{' :: acc

/-- Flush a (possibly empty) pending literal run to a token: a conceptually
empty literal is omitted. -/
def flushTok (pending : List Char) : List (List Char × SliceKind) :=
  if pending = [] then [] else [(pending, SliceKind.literal)]

/-- Modelled from the spec: the single-pass scan of `_slice_template`
(`PythonTemplater._slice_template` is not in the source tree; §4.1 of the
spec).  Classifies by delimiter patterns: `{{` and `}}` are escaped
delimiters, a `{...}` group with no inner brace is a templated expression,
everything else is literal text.  Unterminated or stray braces fall back to
plain literal ("the lexer classifies every character into some span, with
plain literal as the default"). -/
def lexTokens : List Char → LexMode → List Char → List (List Char × SliceKind)
  | [], mode, pending => flushTok (pending ++ mode.chars)
  | c :: rest, .plain, pending =>
    if c = '{' then lexTokens rest (.field []) pending
    else if c = '}' then lexTokens rest .sawClose pending
    else lexTokens rest .plain (pending ++ [c])
  | c :: rest, .sawClose, pending =>
    if c = '}' then
      flushTok pending ++ (['}', '}'], SliceKind.escaped) :: lexTokens rest .plain []
    else if c = '{' then lexTokens rest (.field []) (pending ++ ['}'])
    else lexTokens rest .plain (pending ++ ['}', c])
  | c :: rest, .field acc, pending =>
    if c = '}' then
      flushTok pending ++ ('{' :: acc ++ ['}'], SliceKind.templated) :: lexTokens rest .plain []
    else if c = '{' then
      if acc = [] then
        flushTok pending ++ (['{', '{'], SliceKind.escaped) :: lexTokens rest .plain []
      else lexTokens rest (.field []) (pending ++ '{' :: acc)
    else lexTokens rest (.field (acc ++ [c])) pending

/-- Tag a token sequence with consecutive source offsets starting at `i`. -/
def withIndices : Nat → List (List Char × SliceKind) → List RawFileSlice
  | _, [] => []
  | i, (r, k) :: rest => ⟨r, k, i⟩ :: withIndices (i + r.length) rest

/-- Modelled from the spec: `_slice_template` — scan raw template text into an
ordered sequence of typed spans covering the text exactly. -/
def sliceTemplate (input : List Char) : List RawFileSlice :=
  withIndices 0 (lexTokens input .plain [])

/-- Concatenation of the texts of a token sequence. -/
def tokConcat : List (List Char × SliceKind) → List Char
  | [] => []
  | (r, _) :: rest => r ++ tokConcat rest

/-- Concatenation of the texts of a raw span sequence. -/
def rawConcat : List RawFileSlice → List Char
  | [] => []
  | sp :: rest => sp.raw ++ rawConcat rest

/-- The offsets of a raw span sequence are consecutive starting from `n`:
each span starts where the previous one ended. -/
def chainFrom : Nat → List RawFileSlice → Prop
  | _, [] => True
  | n, sp :: rest => sp.sourceIdx = n ∧ chainFrom (n + sp.raw.length) rest

/-! ## Occurrence Indexer -/

/-- `needle` occurs in `hay` starting at offset `i` (an exact substring match
wholly inside `hay`). -/
def occursAt (needle hay : List Char) (i : Nat) : Prop :=
  (hay.drop i).take needle.length = needle ∧ i + needle.length ≤ hay.length

instance occursAtDecidable (needle hay : List Char) (i : Nat) :
    Decidable (occursAt needle hay i) :=
  inferInstanceAs (Decidable (_ ∧ _))

/-- Modelled from the spec: the per-substring contract of
`PythonTemplater._substring_occurrences` (not in the source tree; §4.2 of the
spec): the ascending list of all (possibly overlapping) start offsets at
which `needle` occurs in `hay`. -/
def occList (needle hay : List Char) : List Nat :=
  (List.range (hay.length + 1)).filter (fun i => decide (occursAt needle hay i))

/-- Modelled from the spec: `PythonTemplater._substring_occurrences` — given a
set of substrings and a haystack, return for each substring its occurrence
offset list (a substring with zero occurrences maps to an empty list, not an
error). -/
def substringOccurrences (hay : List Char) (needles : List (List Char)) :
    List (List Char × List Nat) :=
  needles.map (fun n => (n, occList n hay))

/-! ## Well-formedness and coverage predicates -/

/-- `spansTile a l b`: the raw spans `l` tile the source interval `[a, b)`
exactly — consecutive offsets starting at `a` and ending at `b`, with no
zero-length span (the lexer never emits one). -/
def spansTile : Nat → List RawFileSlice → Nat → Prop
  | a, [], b => a = b
  | a, sp :: rest, b =>
    sp.sourceIdx = a ∧ sp.raw ≠ [] ∧ spansTile (a + sp.raw.length) rest b

instance spansTileDecidable :
    (a : Nat) → (l : List RawFileSlice) → (b : Nat) → Decidable (spansTile a l b)
  | a, [], b => inferInstanceAs (Decidable (a = b))
  | a, sp :: rest, b =>
    have : Decidable (spansTile (a + sp.raw.length) rest b) :=
      spansTileDecidable _ rest _
    inferInstanceAs (Decidable (_ ∧ _ ∧ _))

/-- `chainCovers s t slices s' t'`: the mapping slices are contiguous on both
axes (each slice starts exactly where the previous one stopped), monotone
(`start ≤ stop` within every slice), begin at source `s` / rendered `t` and
end at source `s'` / rendered `t'`.  Instantiated at
`chainCovers 0 0 out (raw length) (rendered length)` this is exactly the
coverage-and-contiguity invariant of the spec. -/
def chainCovers : Nat → Nat → List TemplatedFileSlice → Nat → Nat → Prop
  | s, t, [], s', t' => s = s' ∧ t = t'
  | s, t, sl :: rest, s', t' =>
    sl.sourceSlice.start = s ∧ sl.templatedSlice.start = t ∧
      s ≤ sl.sourceSlice.stop ∧ t ≤ sl.templatedSlice.stop ∧
      chainCovers sl.sourceSlice.stop sl.templatedSlice.stop rest s' t'

instance chainCoversDecidable :
    (s t : Nat) → (l : List TemplatedFileSlice) → (s' t' : Nat) →
      Decidable (chainCovers s t l s' t')
  | _, _, [], _, _ => inferInstanceAs (Decidable (_ ∧ _))
  | _, _, sl :: rest, s', t' =>
    have : Decidable
        (chainCovers sl.sourceSlice.stop sl.templatedSlice.stop rest s' t') :=
      chainCoversDecidable _ _ rest _ _
    inferInstanceAs (Decidable (_ ∧ _ ∧ _ ∧ _ ∧ _))

/-- A well-formed intermediate fragment: its raw spans tile its source range
and its rendered range is monotone. -/
def fragWF (f : IntermediateFileSlice) : Prop :=
  spansTile f.sourceSlice.start f.sliceBuffer f.sourceSlice.stop ∧
    f.templatedSlice.start ≤ f.templatedSlice.stop

instance fragWFDecidable (f : IntermediateFileSlice) : Decidable (fragWF f) :=
  inferInstanceAs (Decidable (_ ∧ _))

/-- `fragChain s t frags s' t'`: the fragments are well formed and contiguous
on both axes from `(s, t)` to `(s', t')` — the shape of a `split_file`
argument fed to the Compound Resolver. -/
def fragChain : Nat → Nat → List IntermediateFileSlice → Nat → Nat → Prop
  | s, t, [], s', t' => s = s' ∧ t = t'
  | s, t, f :: rest, s', t' =>
    f.sourceSlice.start = s ∧ f.templatedSlice.start = t ∧ fragWF f ∧
      fragChain f.sourceSlice.stop f.templatedSlice.stop rest s' t'

instance fragChainDecidable :
    (s t : Nat) → (l : List IntermediateFileSlice) → (s' t' : Nat) →
      Decidable (fragChain s t l s' t')
  | _, _, [], _, _ => inferInstanceAs (Decidable (_ ∧ _))
  | _, _, f :: rest, s', t' =>
    have : Decidable
        (fragChain f.sourceSlice.stop f.templatedSlice.stop rest s' t') :=
      fragChainDecidable _ _ rest _ _
    inferInstanceAs (Decidable (_ ∧ _ ∧ _ ∧ _))

/-- Total length of the texts of a span list. -/
def spansLen : List RawFileSlice → Nat
  | [] => 0
  | sp :: rest => sp.raw.length + spansLen rest

/-- `spansTileRev b l a`: the reversed span list `l` tiles `[a, b)` downwards
(its head is the span ending at `b`).  The shape of the buffer walked by the
tail half of the Boundary Trimmer. -/
def spansTileRev : Nat → List RawFileSlice → Nat → Prop
  | b, [], a => b = a
  | b, sp :: rest, a =>
    sp.sourceIdx + sp.raw.length = b ∧ sp.raw ≠ [] ∧ spansTileRev sp.sourceIdx rest a

/-! ## Boundary Trimmer -/

/-- Modelled from the spec: the head half of `IntermediateFileSlice.trim_ends`
(not in the source tree; §4.5 of the spec).  Consumes leading spans of a
compound fragment: a literal span whose text matches the corresponding
prefix of the fragment's rendered range is emitted as a `literal` slice
consuming equal source and rendered length; a comment is emitted as a
zero-rendered-width slice and trimming continues; a `blockStart`/`blockEnd`
marker is emitted as a zero-rendered-width slice and trimming stops there
(never trims past a block marker); any other span (or a mismatching literal)
stops trimming without consuming.  Returns
`(emitted head slices, remaining source range, remaining rendered range,
remaining spans)`. -/
def trimHead (str : List Char) :
    List RawFileSlice → Rng → Rng →
      List TemplatedFileSlice × Rng × Rng × List RawFileSlice
  | [], ss, ts => ([], ss, ts, [])
  | sp :: rest, ss, ts =>
    match sp.kind with
    | .blockStart | .blockEnd =>
      ([⟨sp.kind, ⟨ss.start, ss.start + sp.raw.length⟩, ⟨ts.start, ts.start⟩⟩],
        ⟨ss.start + sp.raw.length, ss.stop⟩, ts, rest)
    | .comment =>
      let r := trimHead str rest ⟨ss.start + sp.raw.length, ss.stop⟩ ts
      (⟨.comment, ⟨ss.start, ss.start + sp.raw.length⟩, ⟨ts.start, ts.start⟩⟩ :: r.1,
        r.2)
    | .literal =>
      if ts.start + sp.raw.length ≤ ts.stop ∧
          (str.drop ts.start).take sp.raw.length = sp.raw then
        let r := trimHead str rest ⟨ss.start + sp.raw.length, ss.stop⟩
          ⟨ts.start + sp.raw.length, ts.stop⟩
        (⟨.literal, ⟨ss.start, ss.start + sp.raw.length⟩,
            ⟨ts.start, ts.start + sp.raw.length⟩⟩ :: r.1, r.2)
      else ([], ss, ts, sp :: rest)
    | .templated | .escaped => ([], ss, ts, sp :: rest)

/-- Modelled from the spec: the tail half of `trim_ends`, processing the
fragment's spans from the end (the argument list is the reversed remaining
buffer, so its head is the fragment's last span).  Symmetric to `trimHead`:
matching literals are consumed against the rendered suffix, comments are
zero-width, a block marker is emitted zero-width and stops trimming.
Emitted slices are produced in processing order (outermost first). -/
def trimTailAux (str : List Char) :
    List RawFileSlice → Rng → Rng →
      List TemplatedFileSlice × Rng × Rng × List RawFileSlice
  | [], ss, ts => ([], ss, ts, [])
  | sp :: rest, ss, ts =>
    match sp.kind with
    | .blockStart | .blockEnd =>
      ([⟨sp.kind, ⟨sp.sourceIdx, ss.stop⟩, ⟨ts.stop, ts.stop⟩⟩],
        ⟨ss.start, sp.sourceIdx⟩, ts, rest)
    | .comment =>
      let r := trimTailAux str rest ⟨ss.start, sp.sourceIdx⟩ ts
      (⟨.comment, ⟨sp.sourceIdx, ss.stop⟩, ⟨ts.stop, ts.stop⟩⟩ :: r.1, r.2)
    | .literal =>
      if ts.start + sp.raw.length ≤ ts.stop ∧
          (str.drop (ts.stop - sp.raw.length)).take sp.raw.length = sp.raw then
        let r := trimTailAux str rest ⟨ss.start, sp.sourceIdx⟩
          ⟨ts.start, ts.stop - sp.raw.length⟩
        (⟨.literal, ⟨sp.sourceIdx, ss.stop⟩,
            ⟨ts.stop - sp.raw.length, ts.stop⟩⟩ :: r.1, r.2)
      else ([], ss, ts, sp :: rest)
    | .templated | .escaped => ([], ss, ts, sp :: rest)

/-- Modelled from the spec: tail trimming of a fragment buffer (in source
order).  Wraps `trimTailAux` over the reversed buffer; the returned slices
and remaining buffer are back in source order. -/
def trimTail (str : List Char) (buf : List RawFileSlice) (ss ts : Rng) :
    List TemplatedFileSlice × Rng × Rng × List RawFileSlice :=
  let r := trimTailAux str buf.reverse ss ts
  (r.1.reverse, r.2.1, r.2.2.1, r.2.2.2.reverse)

/-- Modelled from the spec: `IntermediateFileSlice.trim_ends` — trim both ends
of an intermediate fragment against the rendered text, returning
`(head slices, shrunk middle fragment, tail slices)`. -/
def trimEnds (f : IntermediateFileSlice) (templatedStr : List Char) :
    List TemplatedFileSlice × IntermediateFileSlice × List TemplatedFileSlice :=
  let h := trimHead templatedStr f.sliceBuffer f.sourceSlice f.templatedSlice
  let t := trimTail templatedStr h.2.2.2 h.2.1 h.2.2.1
  (h.1, ⟨.compound, t.2.1, t.2.2.1, t.2.2.2⟩, t.1)

/-! ## Compound Resolver -/

/-- Modelled from the spec: the coalesced kind of a span list (`MappingSlice`
kinds are "the same enum as `RawSpan` plus a synthetic Templated catch-all"):
a run of pure literals coalesces to `literal`, any mix — block markers
included — coalesces to the `templated` catch-all. -/
def coalesceKind (spans : List RawFileSlice) : SliceKind :=
  if spans ≠ [] ∧ ∀ sp ∈ spans, sp.kind = SliceKind.literal then .literal
  else .templated

/-- Modelled from the spec: the single-character degradation of the fallback
("the middle may legitimately be split at single-character granularity"):
each character of a literal run becomes its own one-character `literal`
slice, consuming one rendered character while any remain and becoming
zero-rendered-width afterwards. -/
def litChars : List Char → Nat → Nat → Nat → List TemplatedFileSlice
  | [], _, _, _ => []
  | _ :: cs, s, t, tStop =>
    if t < tStop then
      ⟨.literal, ⟨s, s + 1⟩, ⟨t, t + 1⟩⟩ :: litChars cs (s + 1) (t + 1) tStop
    else
      ⟨.literal, ⟨s, s + 1⟩, ⟨t, t⟩⟩ :: litChars cs (s + 1) t tStop

/-- Modelled from the spec: the guaranteed-terminating base case of the
Compound Resolver (§4.4 step 2) — a left-to-right walk that accepts possible
misattribution but always yields a total, contiguous slice list: literal
runs degrade to one-character slices aligned left-to-right, block markers
and comments are zero-rendered-width, a trailing templated/escaped span
absorbs the remaining rendered text, and any leftover rendered text is
closed off by a final catch-all slice. -/
def coalesceWalk : List RawFileSlice → Nat → Nat → Nat → Nat → List TemplatedFileSlice
  | [], s, t, sStop, tStop =>
    if s < sStop ∨ t < tStop then [⟨.templated, ⟨s, sStop⟩, ⟨t, tStop⟩⟩] else []
  | sp :: rest, s, t, sStop, tStop =>
    match sp.kind with
    | .blockStart | .blockEnd | .comment =>
      ⟨sp.kind, ⟨s, s + sp.raw.length⟩, ⟨t, t⟩⟩ ::
        coalesceWalk rest (s + sp.raw.length) t sStop tStop
    | .literal =>
      litChars sp.raw s t tStop ++
        coalesceWalk rest (s + sp.raw.length)
          (t + min sp.raw.length (tStop - t)) sStop tStop
    | .templated | .escaped =>
      if rest = [] then
        ⟨sp.kind, ⟨s, s + sp.raw.length⟩, ⟨t, tStop⟩⟩ ::
          coalesceWalk rest (s + sp.raw.length) tStop sStop tStop
      else
        ⟨sp.kind, ⟨s, s + sp.raw.length⟩, ⟨t, t⟩⟩ ::
          coalesceWalk rest (s + sp.raw.length) t sStop tStop

/-- The fallback coalesce of a fragment given its ranges. -/
def coalesceSpans (spans : List RawFileSlice) (ss ts : Rng) :
    List TemplatedFileSlice :=
  coalesceWalk spans ss.start ts.start ss.stop ts.stop

/-- Modelled from the spec: the search for a locally-unique literal anchor
inside a shrunk compound fragment (§4.4 step 3) — the first literal span
whose text has exactly one occurrence in the fragment's rendered region.
Returns the spans before it, the anchor span, the spans after it, and the
global rendered offset of the unique occurrence. -/
def findAnchor (str : List Char) :
    List RawFileSlice → Rng →
      Option (List RawFileSlice × RawFileSlice × List RawFileSlice × Nat)
  | [], _ => none
  | sp :: rest, ts =>
    if sp.kind = SliceKind.literal ∧
        (occList sp.raw ((str.drop ts.start).take (ts.stop - ts.start))).length = 1 then
      some ([], sp, rest, ts.start +
        (occList sp.raw ((str.drop ts.start).take (ts.stop - ts.start))).headD 0)
    else
      match findAnchor str rest ts with
      | some (bef, a, aft, off) => some (sp :: bef, a, aft, off)
      | none => none

/-- The slice kind used when a fragment reduces to a single span
(`try_simple`): block markers degrade to the `templated` catch-all, every
other kind is kept. -/
def simpleKind : SliceKind → SliceKind
  | .blockStart | .blockEnd => .templated
  | k => k

/-- Modelled from the spec: resolution of one compound fragment (§4.4).
Trims both ends, then: an emptied buffer closes any leftover rendered text
with a catch-all slice; a single remaining span becomes one simple slice; a
locally-unique literal anchor splits the fragment in two and recurses on
both halves; with no anchor the fragment is coalesced by the guaranteed
total fallback.  `fuel` bounds the recursion depth (the spec bounds it by
the number of raw spans in the fragment). -/
def resolveCompound : Nat → List Char → List RawFileSlice → Rng → Rng →
    List TemplatedFileSlice
  | 0, _, spans, ss, ts => coalesceSpans spans ss ts
  | fuel + 1, str, spans, ss, ts =>
    let h := trimHead str spans ss ts
    let t := trimTail str h.2.2.2 h.2.1 h.2.2.1
    let ss2 := t.2.1
    let ts2 := t.2.2.1
    let mid :=
      match t.2.2.2 with
      | [] =>
        if ss2.start < ss2.stop ∨ ts2.start < ts2.stop then
          [⟨.templated, ss2, ts2⟩]
        else []
      | [sp] => [⟨simpleKind sp.kind, ss2, ts2⟩]
      | sp0 :: sp1 :: more =>
        match findAnchor str (sp0 :: sp1 :: more) ts2 with
        | some (bef, a, aft, off) =>
          resolveCompound fuel str bef
              ⟨ss2.start, a.sourceIdx⟩ ⟨ts2.start, off⟩ ++
            ⟨.literal, ⟨a.sourceIdx, a.sourceIdx + a.raw.length⟩,
                ⟨off, off + a.raw.length⟩⟩ ::
              resolveCompound fuel str aft ⟨a.sourceIdx + a.raw.length, ss2.stop⟩
                ⟨off + a.raw.length, ts2.stop⟩
        | none => coalesceSpans (sp0 :: sp1 :: more) ss2 ts2
    h.1 ++ mid ++ t.1

/-- Modelled from the spec: resolution of one intermediate fragment inside
`_split_uniques_coalesce_rest`: an `invariant` fragment is a certain literal
correspondence and becomes one `literal` slice; a fragment whose rendered
range has zero length is coalesced into a single point slice; anything else
goes through the compound resolution with fuel `|buffer| + 1`. -/
def resolveFragment (str : List Char) (f : IntermediateFileSlice) :
    List TemplatedFileSlice :=
  match f.resolution with
  | .invariant => [⟨.literal, f.sourceSlice, f.templatedSlice⟩]
  | _ =>
    if f.templatedSlice.stop - f.templatedSlice.start = 0 then
      [⟨coalesceKind f.sliceBuffer, f.sourceSlice, f.templatedSlice⟩]
    else
      resolveCompound (f.sliceBuffer.length + 1) str f.sliceBuffer
        f.sourceSlice f.templatedSlice

/-- Modelled from the spec: `PythonTemplater._split_uniques_coalesce_rest`
(not in the source tree) — resolve every fragment of a split file into the
final ordered mapping-slice list.  Occurrence disambiguation is computed
locally from the rendered text. -/
def splitUniquesCoalesceRest (str : List Char) :
    List IntermediateFileSlice → List TemplatedFileSlice
  | [] => []
  | f :: rest => resolveFragment str f ++ splitUniquesCoalesceRest str rest

/-! ## Invariant Splitter and full pipeline -/

/-- Modelled from the spec: the walk of `PythonTemplater._split_invariants`
(not in the source tree; §4.3 of the spec).  A literal span whose text
occurs exactly once in the raw text and exactly once in the rendered text at
or after the rendered cursor is promoted to an `invariant` fragment; the
pending spans before it are grouped into a `compound` fragment (also emitted
when the rendered axis has a gap); the trailing remainder forms a final
`compound` fragment. -/
def splitInvariantsAux (raw rendered : List Char) :
    List RawFileSlice → Nat → Nat → List RawFileSlice →
      List IntermediateFileSlice
  | [], srcStart, ts, pending =>
    if pending = [] ∧ ts = rendered.length then []
    else
      [⟨.compound, ⟨srcStart, srcStart + spansLen pending⟩,
        ⟨ts, rendered.length⟩, pending⟩]
  | sp :: rest, srcStart, ts, pending =>
    if sp.kind = SliceKind.literal ∧ (occList sp.raw raw).length = 1 ∧
        ((occList sp.raw rendered).filter (fun o => decide (ts ≤ o))).length = 1 then
      (if pending = [] ∧
          ts = ((occList sp.raw rendered).filter (fun o => decide (ts ≤ o))).headD 0 then
        ([] : List IntermediateFileSlice)
      else
        [⟨.compound, ⟨srcStart, sp.sourceIdx⟩,
          ⟨ts, ((occList sp.raw rendered).filter (fun o => decide (ts ≤ o))).headD 0⟩,
          pending⟩]) ++
        ⟨.invariant, ⟨sp.sourceIdx, sp.sourceIdx + sp.raw.length⟩,
            ⟨((occList sp.raw rendered).filter (fun o => decide (ts ≤ o))).headD 0,
              ((occList sp.raw rendered).filter (fun o => decide (ts ≤ o))).headD 0 +
                sp.raw.length⟩, [sp]⟩ ::
          splitInvariantsAux raw rendered rest (sp.sourceIdx + sp.raw.length)
            (((occList sp.raw rendered).filter (fun o => decide (ts ≤ o))).headD 0 +
              sp.raw.length) []
    else splitInvariantsAux raw rendered rest srcStart ts (pending ++ [sp])

/-- Modelled from the spec: `PythonTemplater._split_invariants` — split the
raw spans into invariant and compound fragments against the rendered text. -/
def splitInvariants (raw rendered : List Char) (spans : List RawFileSlice) :
    List IntermediateFileSlice :=
  splitInvariantsAux raw rendered spans 0 0 []

/-- Modelled from the spec: the full alignment pipeline on one file — split
the raw spans into fragments, then resolve every fragment into mapping
slices ("a pure, total function of (raw text, ordered list of raw-text typed
spans, rendered text) to (ordered list of mapping slices)"). -/
def processAlignment (raw rendered : List Char) (spans : List RawFileSlice) :
    List TemplatedFileSlice :=
  splitUniquesCoalesceRest rendered (splitInvariants raw rendered spans)

/-! ## Undefined-variable sentinels and `process`
(embedded from `actual_template_code.py`) -/

/-- `UndefinedRecorder` ("similar to jinja2.StrictUndefined, but remembers,
not fails"): carries the tracked name.  The shared mutable `undefined_set`
is modelled by explicit state passing: each operation takes the current set
(a duplicate-free insertion-ordered list modelling a Python `set`) and
returns the updated one. -/
structure UndefinedRecorder where
  name : String
  deriving DecidableEq, Repr

/-- Insertion into the undefined set (`set.add` semantics): a name already
present is not added again. -/
def addName (n : String) (s : List String) : List String :=
  if n ∈ s then s else s ++ [n]

/-- `UndefinedRecorder.__str__`: "treat undefined vars as empty, but remember
for later" — adds `self.name` to the set and renders as the empty string. -/
def UndefinedRecorder.str (r : UndefinedRecorder) (s : List String) :
    String × List String :=
  ("", addName r.name s)

/-- `UndefinedRecorder.__getattr__`: "don't fail when called, remember
instead" — adds `self.name` to the set and returns a new recorder tracking
the dotted derived name. -/
def UndefinedRecorder.getattr (r : UndefinedRecorder) (item : String)
    (s : List String) : UndefinedRecorder × List String :=
  (⟨r.name ++ "." ++ item⟩, addName r.name s)

/-- `UndefinedRecorder.__call__`: does not fail and does not record — returns
a recorder tracking `name + "()"` with the set unchanged. -/
def UndefinedRecorder.call (r : UndefinedRecorder) (s : List String) :
    UndefinedRecorder × List String :=
  (⟨r.name ++ "()"⟩, s)

/-- `DummyUndefined` (the ignore-templating sentinel): pure data, only the
tracked dotted name.  It holds no reference to any undefined set. -/
structure DummyUndefined where
  name : String
  deriving DecidableEq, Repr

/-- `DummyUndefined.create` factory method. -/
def DummyUndefined.create (n : String) : DummyUndefined := ⟨n⟩

/-- `DummyUndefined.__str__`: renders as the name with every `.` replaced by
`_`.  The undefined set is threaded (for comparison with
`UndefinedRecorder.str`) and returned untouched — the source method body
never mentions any set. -/
def DummyUndefined.str (d : DummyUndefined) (s : List String) :
    String × List String :=
  (d.name.replace "." "_", s)

/-- `DummyUndefined.__getattr__`: returns `create (name + "." + item)`; the
threaded set is returned untouched — nothing is recorded. -/
def DummyUndefined.getattr (d : DummyUndefined) (item : String)
    (s : List String) : DummyUndefined × List String :=
  (DummyUndefined.create (d.name ++ "." ++ item), s)

/-- `DummyUndefined._self_impl`: return the instance itself. -/
def DummyUndefined.selfImpl (d : DummyUndefined) : DummyUndefined := d

/-- `DummyUndefined._bool_impl`: return `true`. -/
def DummyUndefined.boolImpl (_d : DummyUndefined) : Bool := true

/-- `__add__ = __sub__ = __mul__ = _self_impl`, and likewise for the other
arithmetic operators: the right operand is arbitrary and ignored. -/
def DummyUndefined.add {α : Sort _} (d : DummyUndefined) (_other : α) :
    DummyUndefined := d.selfImpl

def DummyUndefined.sub {α : Sort _} (d : DummyUndefined) (_other : α) :
    DummyUndefined := d.selfImpl

def DummyUndefined.mul {α : Sort _} (d : DummyUndefined) (_other : α) :
    DummyUndefined := d.selfImpl

/-- `__floordiv__ = __truediv__ = _self_impl`. -/
def DummyUndefined.floordiv {α : Sort _} (d : DummyUndefined) (_other : α) :
    DummyUndefined := d.selfImpl

def DummyUndefined.truediv {α : Sort _} (d : DummyUndefined) (_other : α) :
    DummyUndefined := d.selfImpl

/-- `__mod__ = __pow__ = _self_impl`. -/
def DummyUndefined.mod {α : Sort _} (d : DummyUndefined) (_other : α) :
    DummyUndefined := d.selfImpl

def DummyUndefined.pow {α : Sort _} (d : DummyUndefined) (_other : α) :
    DummyUndefined := d.selfImpl

/-- `__pos__ = __neg__ = _self_impl` (unary). -/
def DummyUndefined.pos (d : DummyUndefined) : DummyUndefined := d.selfImpl

def DummyUndefined.neg (d : DummyUndefined) : DummyUndefined := d.selfImpl

/-- `__lshift__ = __rshift__ = _self_impl`. -/
def DummyUndefined.lshift {α : Sort _} (d : DummyUndefined) (_other : α) :
    DummyUndefined := d.selfImpl

def DummyUndefined.rshift {α : Sort _} (d : DummyUndefined) (_other : α) :
    DummyUndefined := d.selfImpl

/-- `__getitem__ = _self_impl`. -/
def DummyUndefined.getitem {α : Sort _} (d : DummyUndefined) (_key : α) :
    DummyUndefined := d.selfImpl

/-- `__invert__ = _self_impl` (unary). -/
def DummyUndefined.invert (d : DummyUndefined) : DummyUndefined := d.selfImpl

/-- `__call__ = _self_impl`: calling the sentinel returns it unchanged. -/
def DummyUndefined.call {α : Sort _} (d : DummyUndefined) (_args : α) :
    DummyUndefined := d.selfImpl

/-- `__and__ = __or__ = __xor__ = __bool__ = _bool_impl`. -/
def DummyUndefined.and {α : Sort _} (d : DummyUndefined) (_other : α) : Bool :=
  d.boolImpl

def DummyUndefined.or {α : Sort _} (d : DummyUndefined) (_other : α) : Bool :=
  d.boolImpl

def DummyUndefined.xor {α : Sort _} (d : DummyUndefined) (_other : α) : Bool :=
  d.boolImpl

def DummyUndefined.bool (d : DummyUndefined) : Bool := d.boolImpl

/-- `__lt__ = __le__ = __ge__ = __gt__ = _bool_impl` and
`__eq__ = __ne__ = _bool_impl`. -/
def DummyUndefined.lt {α : Sort _} (d : DummyUndefined) (_other : α) : Bool :=
  d.boolImpl

def DummyUndefined.le {α : Sort _} (d : DummyUndefined) (_other : α) : Bool :=
  d.boolImpl

def DummyUndefined.ge {α : Sort _} (d : DummyUndefined) (_other : α) : Bool :=
  d.boolImpl

def DummyUndefined.gt {α : Sort _} (d : DummyUndefined) (_other : α) : Bool :=
  d.boolImpl

def DummyUndefined.eq {α : Sort _} (d : DummyUndefined) (_other : α) : Bool :=
  d.boolImpl

def DummyUndefined.ne {α : Sort _} (d : DummyUndefined) (_other : α) : Bool :=
  d.boolImpl

/-- `__hash__`: a constant hash value. -/
def DummyUndefined.hash (_d : DummyUndefined) : Nat := 0

/-- `__iter__`: an iterator containing only the instance itself. -/
def DummyUndefined.iter (d : DummyUndefined) : List DummyUndefined := [d]

/-- Outcome of `env.parse` / `meta.find_undeclared_variables` (the templating
engine is an external collaborator, so its outcome is a parameter of
`process`). -/
inductive ParseOutcome where
  | ok (undeclared : List String)
  | syntaxError (lineno : Nat) (msg : String)
  | otherError (msg : String)
  deriving DecidableEq, Repr

/-- Outcome of `slice_file` (render + slice): success carries the raw spans,
the mapping slices and the rendered text; the failure constructors mirror
the `except (TemplateError, TypeError)` clause of `process`. -/
inductive RenderOutcome where
  | ok (rawSliced : List RawFileSlice) (slicedFile : List TemplatedFileSlice)
      (outStr : String)
  | templateError (msg : String)
  | typeError (msg : String)
  deriving DecidableEq, Repr

/-- `SQLTemplaterError` with its `line_no` attribute; "the default is line 0,
which can't be ignored because it's not a valid line number". -/
structure SQLTemplaterError where
  msg : String
  lineNo : Nat := 0
  deriving DecidableEq, Repr

/-- The success payload of `process`: the `TemplatedFile` — source text,
rendered text and the two slice lists. -/
structure TemplatedFileResult where
  sourceStr : String
  templatedStr : String
  rawSliced : List RawFileSlice
  slicedFile : List TemplatedFileSlice
  deriving DecidableEq, Repr

/-- `process` from `actual_template_code.py`.  A parse failure raises an
`SQLTemplaterError` whose line number is copied from the engine only when
the failure is a `TemplateSyntaxError` (otherwise the default 0 remains); a
`TemplateError`/`TypeError` failure while slicing raises an
`SQLTemplaterError` pinned to line 1 as a sentinel; no retry happens, and on
failure no mapping slices are returned (`Except.error` carries none). -/
def process (inStr : String) (parse : ParseOutcome) (render : RenderOutcome) :
    Except SQLTemplaterError TemplatedFileResult :=
  match parse with
  | .syntaxError l msg =>
    .error
      { msg := "Failed to parse Jinja syntax. Correct the syntax or " ++
          "select an alternative templater. Error: " ++ msg,
        lineNo := l }
  | .otherError msg =>
    .error
      { msg := "Failed to parse Jinja syntax. Correct the syntax or " ++
          "select an alternative templater. Error: " ++ msg }
  | .ok _ =>
    match render with
    | .ok rawSliced slicedFile outStr =>
      .ok
        { sourceStr := inStr,
          templatedStr := outStr,
          rawSliced := rawSliced,
          slicedFile := slicedFile }
    | .templateError msg =>
      .error
        { msg := "Unrecoverable failure in Jinja templating: " ++ msg ++
            ". Have you correctly configured your variables? " ++
            "https://docs.sqlfluff.com/en/latest/perma/variables.html",
          lineNo := 1 }
    | .typeError msg =>
      .error
        { msg := "Unrecoverable failure in Jinja templating: " ++ msg ++
            ". Have you correctly configured your variables? " ++
            "https://docs.sqlfluff.com/en/latest/perma/variables.html",
          lineNo := 1 }

/-! ## Theorems: Raw Lexer -/

theorem tokConcat_flushTok (pending : List Char)
    (ts : List (List Char × SliceKind)) :
    tokConcat (flushTok pending ++ ts) = pending ++ tokConcat ts := by
  by_cases h : pending = [] <;> simp [flushTok, h, tokConcat]

theorem tokConcat_lexTokens (input : List Char) (mode : LexMode)
    (pending : List Char) :
    tokConcat (lexTokens input mode pending) = pending ++ mode.chars ++ input := by
  induction input generalizing mode pending with
  | nil =>
    have h := tokConcat_flushTok (pending ++ mode.chars) []
    simp only [List.append_nil] at h
    simpa [lexTokens, tokConcat] using h
  | cons c rest ih =>
    cases mode with
    | plain =>
      by_cases h1 : c = '{'
      · simp [lexTokens, h1, ih, LexMode.chars]
      · by_cases h2 : c = '}'
        · simp [lexTokens, h1, h2, ih, LexMode.chars]
        · simp [lexTokens, h1, h2, ih, LexMode.chars]
    | sawClose =>
      by_cases h1 : c = '}'
      · simp [lexTokens, h1, tokConcat_flushTok, tokConcat, ih, LexMode.chars]
      · by_cases h2 : c = '{'
        · simp [lexTokens, h1, h2, ih, LexMode.chars]
        · simp [lexTokens, h1, h2, ih, LexMode.chars]
    | field acc =>
      by_cases h1 : c = '}'
      · simp [lexTokens, h1, tokConcat_flushTok, tokConcat, ih, LexMode.chars]
      · by_cases h2 : c = '{'
        · by_cases h3 : acc = []
          · simp [lexTokens, h1, h2, h3, tokConcat_flushTok, tokConcat, ih,
              LexMode.chars]
          · simp [lexTokens, h1, h2, h3, ih, LexMode.chars]
        · simp [lexTokens, h1, h2, ih, LexMode.chars]

theorem rawConcat_withIndices (i : Nat) (ts : List (List Char × SliceKind)) :
    rawConcat (withIndices i ts) = tokConcat ts := by
  induction ts generalizing i with
  | nil => rfl
  | cons t rest ih => cases t with | mk r k => simp [withIndices, rawConcat, tokConcat, ih]

theorem chainFrom_withIndices (i : Nat) (ts : List (List Char × SliceKind)) :
    chainFrom i (withIndices i ts) := by
  induction ts generalizing i with
  | nil => trivial
  | cons t rest ih => cases t with | mk r k => exact ⟨rfl, ih _⟩

/-- The Raw Lexer reconstructs its input exactly. -/
theorem rawConcat_sliceTemplate (input : List Char) :
    rawConcat (sliceTemplate input) = input := by
  simp [sliceTemplate, rawConcat_withIndices, tokConcat_lexTokens, LexMode.chars]

/-! ## Theorems: Occurrence Indexer -/

theorem mem_occList (needle hay : List Char) (i : Nat) :
    i ∈ occList needle hay ↔ occursAt needle hay i := by
  simp only [occList, List.mem_filter, List.mem_range, decide_eq_true_eq]
  constructor
  · exact fun h => h.2
  · intro h
    exact ⟨Nat.lt_succ_of_le (Nat.le_trans (Nat.le_add_right _ _) h.2), h⟩

theorem occList_pairwise (needle hay : List Char) :
    List.Pairwise (· < ·) (occList needle hay) :=
  List.Pairwise.filter _ (List.pairwise_lt_range _)

/-! ## Theorems: tiling and coverage basics -/

theorem chainCovers_append {l1 l2 : List TemplatedFileSlice}
    {s t s' t' s'' t'' : Nat} (h1 : chainCovers s t l1 s' t')
    (h2 : chainCovers s' t' l2 s'' t'') : chainCovers s t (l1 ++ l2) s'' t'' := by
  induction l1 generalizing s t with
  | nil => obtain ⟨rfl, rfl⟩ := h1; simpa using h2
  | cons sl rest ih =>
    obtain ⟨h3, h4, h5, h6, h7⟩ := h1
    exact ⟨h3, h4, h5, h6, ih h7⟩

theorem chainCovers_nil {s t : Nat} : chainCovers s t [] s t := ⟨rfl, rfl⟩

theorem chainCovers_single {sl : TemplatedFileSlice} {s t : Nat}
    (h1 : sl.sourceSlice.start = s) (h2 : sl.templatedSlice.start = t)
    (h3 : s ≤ sl.sourceSlice.stop) (h4 : t ≤ sl.templatedSlice.stop) :
    chainCovers s t [sl] sl.sourceSlice.stop sl.templatedSlice.stop :=
  ⟨h1, h2, h3, h4, rfl, rfl⟩

theorem spansTile_le {l : List RawFileSlice} :
    ∀ {a b : Nat}, spansTile a l b → a ≤ b := by
  induction l with
  | nil => intro a b h; exact Nat.le_of_eq h
  | cons sp rest ih =>
    intro a b h
    exact Nat.le_trans (Nat.le_add_right a sp.raw.length) (ih h.2.2)

theorem spansTile_len {l : List RawFileSlice} :
    ∀ {a b : Nat}, spansTile a l b → b = a + spansLen l := by
  induction l with
  | nil => intro a b h; simpa [spansLen] using h.symm
  | cons sp rest ih =>
    intro a b h
    have := ih h.2.2
    simp only [spansLen]
    omega

theorem spansTile_snoc {l : List RawFileSlice} :
    ∀ {a m : Nat} {sp : RawFileSlice}, spansTile a l m → sp.sourceIdx = m →
      sp.raw ≠ [] → spansTile a (l ++ [sp]) (m + sp.raw.length) := by
  induction l with
  | nil =>
    intro a m sp h hidx hne
    subst h
    exact ⟨hidx, hne, by simp [spansTile, hidx]⟩
  | cons sp0 rest ih =>
    intro a m sp h hidx hne
    exact ⟨h.1, h.2.1, ih h.2.2 hidx hne⟩

theorem spansTile_split {l1 : List RawFileSlice} :
    ∀ {a b : Nat} {sp : RawFileSlice} {l2 : List RawFileSlice},
      spansTile a (l1 ++ sp :: l2) b →
      spansTile a l1 sp.sourceIdx ∧
        spansTile (sp.sourceIdx + sp.raw.length) l2 b := by
  induction l1 with
  | nil =>
    intro a b sp l2 h
    exact ⟨h.1.symm, by rw [h.1]; exact h.2.2⟩
  | cons sp0 rest ih =>
    intro a b sp l2 h
    obtain ⟨h1, h2⟩ := ih h.2.2
    exact ⟨⟨h.1, h.2.1, h1⟩, h2⟩

theorem spansTileRev_snoc {l : List RawFileSlice} :
    ∀ {a b : Nat} {sp : RawFileSlice},
      spansTileRev b (l ++ [sp]) a ↔
        spansTileRev b l (a + sp.raw.length) ∧ sp.sourceIdx = a ∧ sp.raw ≠ [] := by
  induction l with
  | nil =>
    intro a b sp
    simp only [List.nil_append, spansTileRev]
    constructor
    · rintro ⟨h1, h2, h3⟩
      exact ⟨by omega, h3, h2⟩
    · rintro ⟨h1, h2, h3⟩
      exact ⟨by omega, h3, h2⟩
  | cons sp0 rest ih =>
    intro a b sp
    constructor
    · rintro ⟨h1, h2, h3⟩
      obtain ⟨h4, h5, h6⟩ := ih.mp h3
      exact ⟨⟨h1, h2, h4⟩, h5, h6⟩
    · rintro ⟨⟨h1, h2, h3⟩, h4, h5⟩
      exact ⟨h1, h2, ih.mpr ⟨h3, h4, h5⟩⟩

theorem spansTile_reverse {l : List RawFileSlice} :
    ∀ {a b : Nat}, spansTile a l b ↔ spansTileRev b l.reverse a := by
  induction l with
  | nil => intro a b; simp [spansTile, spansTileRev, eq_comm]
  | cons sp rest ih =>
    intro a b
    simp only [List.reverse_cons]
    rw [spansTileRev_snoc]
    constructor
    · rintro ⟨h1, h2, h3⟩
      exact ⟨ih.mp h3, h1, h2⟩
    · rintro ⟨h1, h2, h3⟩
      exact ⟨h2, h3, ih.mpr h1⟩

theorem spansTileRev_le {l : List RawFileSlice} :
    ∀ {a b : Nat}, spansTileRev b l a → a ≤ b := by
  induction l with
  | nil => intro a b h; exact Nat.le_of_eq h.symm
  | cons sp rest ih =>
    intro a b h
    have h1 := h.1
    have h2 := ih h.2.2
    omega

/-! ## Theorems: Boundary Trimmer -/

theorem trimHead_spec (str : List Char) :
    ∀ (spans : List RawFileSlice) (ss ts : Rng) (hd : List TemplatedFileSlice)
      (ss' ts' : Rng) (buf : List RawFileSlice),
      trimHead str spans ss ts = (hd, ss', ts', buf) →
      spansTile ss.start spans ss.stop → ts.start ≤ ts.stop →
      chainCovers ss.start ts.start hd ss'.start ts'.start ∧
        ss'.stop = ss.stop ∧ ts'.stop = ts.stop ∧
        spansTile ss'.start buf ss'.stop ∧ ts'.start ≤ ts'.stop := by
  intro spans
  induction spans with
  | nil =>
    intro ss ts hd ss' ts' buf he h1 h2
    simp only [trimHead, Prod.mk.injEq] at he
    obtain ⟨rfl, rfl, rfl, rfl⟩ := he
    exact ⟨⟨rfl, rfl⟩, rfl, rfl, h1, h2⟩
  | cons sp rest ih =>
    intro ss ts hd ss' ts' buf he h1 h2
    obtain ⟨hidx, hne, hrest⟩ := h1
    cases hk : sp.kind with
    | blockStart =>
      simp only [trimHead, hk, Prod.mk.injEq] at he
      obtain ⟨rfl, rfl, rfl, rfl⟩ := he
      exact ⟨⟨rfl, rfl, Nat.le_add_right _ _, Nat.le_refl _, rfl, rfl⟩,
        rfl, rfl, hrest, h2⟩
    | blockEnd =>
      simp only [trimHead, hk, Prod.mk.injEq] at he
      obtain ⟨rfl, rfl, rfl, rfl⟩ := he
      exact ⟨⟨rfl, rfl, Nat.le_add_right _ _, Nat.le_refl _, rfl, rfl⟩,
        rfl, rfl, hrest, h2⟩
    | comment =>
      rcases hr : trimHead str rest ⟨ss.start + sp.raw.length, ss.stop⟩ ts with
        ⟨hd1, ss1, ts1, buf1⟩
      simp only [trimHead, hk, hr, Prod.mk.injEq] at he
      obtain ⟨rfl, rfl, rfl, rfl⟩ := he
      obtain ⟨C, E1, E2, T, W⟩ := ih _ _ _ _ _ _ hr hrest h2
      exact ⟨⟨rfl, rfl, Nat.le_add_right _ _, Nat.le_refl _, C⟩, E1, E2, T, W⟩
    | literal =>
      by_cases hc : ts.start + sp.raw.length ≤ ts.stop ∧
          (str.drop ts.start).take sp.raw.length = sp.raw
      · rcases hr : trimHead str rest ⟨ss.start + sp.raw.length, ss.stop⟩
          ⟨ts.start + sp.raw.length, ts.stop⟩ with ⟨hd1, ss1, ts1, buf1⟩
        simp only [trimHead, hk, hc, if_true, hr, Prod.mk.injEq] at he
        obtain ⟨rfl, rfl, rfl, rfl⟩ := he
        obtain ⟨C, E1, E2, T, W⟩ := ih _ _ _ _ _ _ hr hrest hc.1
        exact ⟨⟨rfl, rfl, Nat.le_add_right _ _, Nat.le_add_right _ _, C⟩,
          E1, E2, T, W⟩
      · simp only [trimHead, hk, hc, if_false, Prod.mk.injEq] at he
        obtain ⟨rfl, rfl, rfl, rfl⟩ := he
        exact ⟨⟨rfl, rfl⟩, rfl, rfl, ⟨hidx, hne, hrest⟩, h2⟩
    | templated =>
      simp only [trimHead, hk, Prod.mk.injEq] at he
      obtain ⟨rfl, rfl, rfl, rfl⟩ := he
      exact ⟨⟨rfl, rfl⟩, rfl, rfl, ⟨hidx, hne, hrest⟩, h2⟩
    | escaped =>
      simp only [trimHead, hk, Prod.mk.injEq] at he
      obtain ⟨rfl, rfl, rfl, rfl⟩ := he
      exact ⟨⟨rfl, rfl⟩, rfl, rfl, ⟨hidx, hne, hrest⟩, h2⟩

theorem trimTailAux_spec (str : List Char) :
    ∀ (rev : List RawFileSlice) (ss ts : Rng) (tl : List TemplatedFileSlice)
      (ss' ts' : Rng) (bufRev : List RawFileSlice),
      trimTailAux str rev ss ts = (tl, ss', ts', bufRev) →
      spansTileRev ss.stop rev ss.start → ts.start ≤ ts.stop →
      chainCovers ss'.stop ts'.stop tl.reverse ss.stop ts.stop ∧
        ss'.start = ss.start ∧ ts'.start = ts.start ∧
        spansTileRev ss'.stop bufRev ss'.start ∧ ts'.start ≤ ts'.stop := by
  intro rev
  induction rev with
  | nil =>
    intro ss ts tl ss' ts' bufRev he h1 h2
    simp only [trimTailAux, Prod.mk.injEq] at he
    obtain ⟨rfl, rfl, rfl, rfl⟩ := he
    exact ⟨by simpa [h1] using chainCovers_nil, rfl, rfl, h1, h2⟩
  | cons sp rest ih =>
    intro ss ts tl ss' ts' bufRev he h1 h2
    obtain ⟨hidx, hne, hrest⟩ := h1
    cases hk : sp.kind with
    | blockStart =>
      simp only [trimTailAux, hk, Prod.mk.injEq] at he
      obtain ⟨rfl, rfl, rfl, rfl⟩ := he
      exact ⟨⟨rfl, rfl, show sp.sourceIdx ≤ ss.stop by omega, Nat.le_refl _,
        rfl, rfl⟩, rfl, rfl, hrest, h2⟩
    | blockEnd =>
      simp only [trimTailAux, hk, Prod.mk.injEq] at he
      obtain ⟨rfl, rfl, rfl, rfl⟩ := he
      exact ⟨⟨rfl, rfl, show sp.sourceIdx ≤ ss.stop by omega, Nat.le_refl _,
        rfl, rfl⟩, rfl, rfl, hrest, h2⟩
    | comment =>
      rcases hr : trimTailAux str rest ⟨ss.start, sp.sourceIdx⟩ ts with
        ⟨tl1, ss1, ts1, buf1⟩
      simp only [trimTailAux, hk, hr, Prod.mk.injEq] at he
      obtain ⟨h3, h4, h5, h6⟩ := he
      subst h3; subst h4; subst h5; subst h6
      obtain ⟨C, E1, E2, T, W⟩ := ih _ _ _ _ _ _ hr hrest h2
      refine ⟨?_, E1, E2, T, W⟩
      simp only [List.reverse_cons]
      exact chainCovers_append C
        ⟨rfl, rfl, show sp.sourceIdx ≤ ss.stop by omega, Nat.le_refl _, rfl, rfl⟩
    | literal =>
      by_cases hc : ts.start + sp.raw.length ≤ ts.stop ∧
          (str.drop (ts.stop - sp.raw.length)).take sp.raw.length = sp.raw
      · rcases hr : trimTailAux str rest ⟨ss.start, sp.sourceIdx⟩
          ⟨ts.start, ts.stop - sp.raw.length⟩ with ⟨tl1, ss1, ts1, buf1⟩
        simp only [trimTailAux, hk] at he
        rw [if_pos hc, hr] at he
        simp only [Prod.mk.injEq] at he
        obtain ⟨h3, h4, h5, h6⟩ := he
        subst h3; subst h4; subst h5; subst h6
        obtain ⟨C, E1, E2, T, W⟩ := ih _ _ _ _ _ _ hr hrest
          (show ts.start ≤ ts.stop - sp.raw.length by omega)
        refine ⟨?_, E1, E2, T, W⟩
        simp only [List.reverse_cons]
        exact chainCovers_append C
          ⟨rfl, rfl, show sp.sourceIdx ≤ ss.stop by omega, Nat.sub_le _ _, rfl, rfl⟩
      · simp only [trimTailAux, hk] at he
        rw [if_neg hc] at he
        simp only [Prod.mk.injEq] at he
        obtain ⟨rfl, rfl, rfl, rfl⟩ := he
        exact ⟨⟨rfl, rfl⟩, rfl, rfl, ⟨hidx, hne, hrest⟩, h2⟩
    | templated =>
      simp only [trimTailAux, hk, Prod.mk.injEq] at he
      obtain ⟨rfl, rfl, rfl, rfl⟩ := he
      exact ⟨⟨rfl, rfl⟩, rfl, rfl, ⟨hidx, hne, hrest⟩, h2⟩
    | escaped =>
      simp only [trimTailAux, hk, Prod.mk.injEq] at he
      obtain ⟨rfl, rfl, rfl, rfl⟩ := he
      exact ⟨⟨rfl, rfl⟩, rfl, rfl, ⟨hidx, hne, hrest⟩, h2⟩

theorem trimTail_spec (str : List Char) (buf : List RawFileSlice) (ss ts : Rng)
    (tl : List TemplatedFileSlice) (ss' ts' : Rng) (buf' : List RawFileSlice)
    (he : trimTail str buf ss ts = (tl, ss', ts', buf'))
    (h1 : spansTile ss.start buf ss.stop) (h2 : ts.start ≤ ts.stop) :
    chainCovers ss'.stop ts'.stop tl ss.stop ts.stop ∧ ss'.start = ss.start ∧
      ts'.start = ts.start ∧ spansTile ss'.start buf' ss'.stop ∧
      ts'.start ≤ ts'.stop := by
  rcases hr : trimTailAux str buf.reverse ss ts with ⟨tl1, ss1, ts1, buf1⟩
  simp only [trimTail, hr, Prod.mk.injEq] at he
  obtain ⟨h3, h4, h5, h6⟩ := he
  subst h3; subst h4; subst h5; subst h6
  obtain ⟨C, E1, E2, T, W⟩ := trimTailAux_spec str buf.reverse ss ts _ _ _ _ hr
    (spansTile_reverse.mp h1) h2
  refine ⟨C, E1, E2, ?_, W⟩
  have h7 := spansTile_reverse (l := buf1.reverse) (a := ss1.start) (b := ss1.stop)
  rw [List.reverse_reverse] at h7
  exact h7.mpr T

/-! ## Theorems: fallback coalesce -/

theorem litChars_covers (cs : List Char) :
    ∀ (s t tStop s' t' : Nat), t ≤ tStop → s' = s + cs.length →
      t' = t + min cs.length (tStop - t) →
      chainCovers s t (litChars cs s t tStop) s' t' := by
  induction cs with
  | nil =>
    intro s t tStop s' t' h e1 e2
    have : s' = s := by simpa using e1
    have : t' = t := by simp at e2; omega
    subst this
    subst ‹s' = s›
    exact chainCovers_nil
  | cons c cs ih =>
    intro s t tStop s' t' h e1 e2
    simp only [List.length_cons] at e1 e2
    by_cases ht : t < tStop
    · simp only [litChars, if_pos ht]
      exact ⟨rfl, rfl, Nat.le_succ s, Nat.le_succ t,
        ih (s + 1) (t + 1) tStop s' t' (by omega) (by omega) (by omega)⟩
    · simp only [litChars, if_neg ht]
      exact ⟨rfl, rfl, Nat.le_succ s, Nat.le_refl t,
        ih (s + 1) t tStop s' t' h (by omega) (by omega)⟩

theorem coalesceWalk_covers (spans : List RawFileSlice) :
    ∀ (s t sStop tStop : Nat), spansTile s spans sStop → t ≤ tStop →
      chainCovers s t (coalesceWalk spans s t sStop tStop) sStop tStop := by
  induction spans with
  | nil =>
    intro s t sStop tStop h1 h2
    subst h1
    by_cases hc : s < s ∨ t < tStop
    · simp only [coalesceWalk, if_pos hc]
      exact ⟨rfl, rfl, Nat.le_refl _, h2, rfl, rfl⟩
    · simp only [coalesceWalk, if_neg hc]
      exact ⟨rfl, by omega⟩
  | cons sp rest ih =>
    intro s t sStop tStop h1 h2
    obtain ⟨hidx, hne, hrest⟩ := h1
    cases hk : sp.kind with
    | blockStart =>
      simp only [coalesceWalk, hk]
      exact ⟨rfl, rfl, Nat.le_add_right _ _, Nat.le_refl _, ih _ _ _ _ hrest h2⟩
    | blockEnd =>
      simp only [coalesceWalk, hk]
      exact ⟨rfl, rfl, Nat.le_add_right _ _, Nat.le_refl _, ih _ _ _ _ hrest h2⟩
    | comment =>
      simp only [coalesceWalk, hk]
      exact ⟨rfl, rfl, Nat.le_add_right _ _, Nat.le_refl _, ih _ _ _ _ hrest h2⟩
    | literal =>
      simp only [coalesceWalk, hk]
      exact chainCovers_append
        (litChars_covers sp.raw s t tStop _ _ h2 rfl rfl)
        (ih _ _ _ _ hrest (by omega))
    | templated =>
      by_cases hr0 : rest = []
      · subst hr0
        simp only [coalesceWalk, hk, if_pos rfl]
        exact ⟨rfl, rfl, Nat.le_add_right _ _, h2,
          ih _ _ _ _ hrest (Nat.le_refl _)⟩
      · simp only [coalesceWalk, hk, if_neg hr0]
        exact ⟨rfl, rfl, Nat.le_add_right _ _, Nat.le_refl _,
          ih _ _ _ _ hrest h2⟩
    | escaped =>
      by_cases hr0 : rest = []
      · subst hr0
        simp only [coalesceWalk, hk, if_pos rfl]
        exact ⟨rfl, rfl, Nat.le_add_right _ _, h2,
          ih _ _ _ _ hrest (Nat.le_refl _)⟩
      · simp only [coalesceWalk, hk, if_neg hr0]
        exact ⟨rfl, rfl, Nat.le_add_right _ _, Nat.le_refl _,
          ih _ _ _ _ hrest h2⟩

/-! ## Theorems: Compound Resolver -/

theorem headD_mem_of_length_one {l : List Nat} (h : l.length = 1) :
    l.headD 0 ∈ l := by
  cases l with
  | nil => simp at h
  | cons x xs => simp

theorem coalesceSpans_covers (spans : List RawFileSlice) (ss ts : Rng)
    (h1 : spansTile ss.start spans ss.stop) (h2 : ts.start ≤ ts.stop) :
    chainCovers ss.start ts.start (coalesceSpans spans ss ts) ss.stop ts.stop :=
  coalesceWalk_covers spans _ _ _ _ h1 h2

theorem findAnchor_some (str : List Char) :
    ∀ (spans : List RawFileSlice) (ts : Rng) (bef : List RawFileSlice)
      (a : RawFileSlice) (aft : List RawFileSlice) (off : Nat),
      findAnchor str spans ts = some (bef, a, aft, off) →
      ts.start ≤ ts.stop →
      spans = bef ++ a :: aft ∧ a.kind = SliceKind.literal ∧
        ts.start ≤ off ∧ off + a.raw.length ≤ ts.stop := by
  intro spans
  induction spans with
  | nil => intro ts bef a aft off he _; simp [findAnchor] at he
  | cons sp rest ih =>
    intro ts bef a aft off he hts
    by_cases hc : sp.kind = SliceKind.literal ∧
        (occList sp.raw ((str.drop ts.start).take (ts.stop - ts.start))).length = 1
    · simp only [findAnchor, if_pos hc, Option.some.injEq, Prod.mk.injEq] at he
      obtain ⟨h1, h2, h3, h4⟩ := he
      subst h1; subst h2; subst h3; subst h4
      refine ⟨by simp, hc.1, Nat.le_add_right _ _, ?_⟩
      have hm := headD_mem_of_length_one hc.2
      have ho := (mem_occList _ _ _).mp hm
      have hlen := ho.2
      have hmin : ((str.drop ts.start).take (ts.stop - ts.start)).length ≤
          ts.stop - ts.start := by
        rw [List.length_take]
        exact Nat.min_le_left _ _
      omega
    · rcases hf : findAnchor str rest ts with _ | ⟨⟨bef1, a1, aft1, off1⟩⟩
      · simp only [findAnchor, if_neg hc, hf] at he
        exact Option.noConfusion he
      · simp only [findAnchor, if_neg hc, hf, Option.some.injEq,
          Prod.mk.injEq] at he
        obtain ⟨h1, h2, h3, h4⟩ := he
        subst h1; subst h2; subst h3; subst h4
        obtain ⟨d1, d2, d3, d4⟩ := ih ts _ _ _ _ hf hts
        exact ⟨by simp [d1], d2, d3, d4⟩

theorem resolveCompound_covers :
    ∀ (fuel : Nat) (str : List Char) (spans : List RawFileSlice) (ss ts : Rng),
      spansTile ss.start spans ss.stop → ts.start ≤ ts.stop →
      chainCovers ss.start ts.start (resolveCompound fuel str spans ss ts)
        ss.stop ts.stop := by
  intro fuel
  induction fuel with
  | zero =>
    intro str spans ss ts h1 h2
    exact coalesceWalk_covers spans _ _ _ _ h1 h2
  | succ fuel ih =>
    intro str spans ss ts h1 h2
    rcases hh : trimHead str spans ss ts with ⟨hd, ss1, ts1, buf1⟩
    rcases ht : trimTail str buf1 ss1 ts1 with ⟨tl, ss2, ts2, buf2⟩
    obtain ⟨CH, EH1, EH2, TH, WH⟩ := trimHead_spec str spans ss ts _ _ _ _ hh h1 h2
    obtain ⟨CT, ET1, ET2, TT, WT⟩ := trimTail_spec str buf1 ss1 ts1 _ _ _ _ ht TH WH
    simp only [resolveCompound, hh, ht]
    have CT' : chainCovers ss2.stop ts2.stop tl ss.stop ts.stop := by
      rw [← EH1, ← EH2]; exact CT
    have midGoal : ∀ mid : List TemplatedFileSlice,
        chainCovers ss2.start ts2.start mid ss2.stop ts2.stop →
        chainCovers ss.start ts.start (hd ++ mid ++ tl) ss.stop ts.stop := by
      intro mid hm
      rw [ET1, ET2] at hm
      rw [List.append_assoc]
      exact chainCovers_append CH (chainCovers_append hm CT')
    rcases buf2 with _ | ⟨sp0, _ | ⟨sp1, more⟩⟩
    · have hse : ss2.start = ss2.stop := TT
      by_cases hc : ss2.start < ss2.stop ∨ ts2.start < ts2.stop
      · simp only [if_pos hc]
        exact midGoal _ ⟨rfl, rfl, Nat.le_of_eq hse, WT, rfl, rfl⟩
      · simp only [if_neg hc]
        exact midGoal _ ⟨by omega, by omega⟩
    · exact midGoal _ ⟨rfl, rfl, spansTile_le TT, WT, rfl, rfl⟩
    · rcases hfa : findAnchor str (sp0 :: sp1 :: more) ts2 with _ | ⟨⟨bef, a, aft, off⟩⟩
      · simp only [hfa]
        exact midGoal _ (coalesceSpans_covers _ _ _ TT WT)
      · simp only [hfa]
        obtain ⟨hdec, hkind, hoff1, hoff2⟩ :=
          findAnchor_some str (sp0 :: sp1 :: more) ts2 _ _ _ _ hfa WT
        rw [hdec] at TT
        obtain ⟨TT1, TT2⟩ := spansTile_split TT
        refine midGoal _ ?_
        refine chainCovers_append
          (ih str bef ⟨ss2.start, a.sourceIdx⟩ ⟨ts2.start, off⟩ TT1 hoff1) ?_
        exact ⟨rfl, rfl, Nat.le_add_right _ _, Nat.le_add_right _ _,
          ih str aft ⟨a.sourceIdx + a.raw.length, ss2.stop⟩
            ⟨off + a.raw.length, ts2.stop⟩ TT2 hoff2⟩

theorem resolveFragment_covers (str : List Char) (f : IntermediateFileSlice)
    (h : fragWF f) :
    chainCovers f.sourceSlice.start f.templatedSlice.start
      (resolveFragment str f) f.sourceSlice.stop f.templatedSlice.stop := by
  obtain ⟨h1, h2⟩ := h
  cases hres : f.resolution with
  | invariant =>
    simp only [resolveFragment, hres]
    exact ⟨rfl, rfl, spansTile_le h1, h2, rfl, rfl⟩
  | compound =>
    simp only [resolveFragment, hres]
    by_cases hz : f.templatedSlice.stop - f.templatedSlice.start = 0
    · rw [if_pos hz]
      exact ⟨rfl, rfl, spansTile_le h1, h2, rfl, rfl⟩
    · rw [if_neg hz]
      exact resolveCompound_covers _ str _ _ _ h1 h2
  | simple =>
    simp only [resolveFragment, hres]
    by_cases hz : f.templatedSlice.stop - f.templatedSlice.start = 0
    · rw [if_pos hz]
      exact ⟨rfl, rfl, spansTile_le h1, h2, rfl, rfl⟩
    · rw [if_neg hz]
      exact resolveCompound_covers _ str _ _ _ h1 h2

/-- The Compound Resolver preserves coverage over any well-formed fragment
chain: the core totality result shared by the pipeline theorems. -/
theorem resolverCovers (str : List Char) :
    ∀ (frags : List IntermediateFileSlice) (s t s' t' : Nat),
      fragChain s t frags s' t' →
      chainCovers s t (splitUniquesCoalesceRest str frags) s' t' := by
  intro frags
  induction frags with
  | nil =>
    intro s t s' t' h
    obtain ⟨rfl, rfl⟩ := h
    exact chainCovers_nil
  | cons f rest ih =>
    intro s t s' t' h
    obtain ⟨hs, ht, hwf, hrest⟩ := h
    subst hs; subst ht
    simp only [splitUniquesCoalesceRest]
    exact chainCovers_append (resolveFragment_covers str f hwf) (ih _ _ _ _ hrest)

/-! ## Theorems: Invariant Splitter and pipeline -/

theorem splitInvariantsAux_chain (raw rendered : List Char) :
    ∀ (spans : List RawFileSlice) (srcStart ts : Nat)
      (pending : List RawFileSlice) (pos b : Nat),
      spansTile srcStart pending pos → spansTile pos spans b →
      ts ≤ rendered.length →
      fragChain srcStart ts
        (splitInvariantsAux raw rendered spans srcStart ts pending)
        b rendered.length := by
  intro spans
  induction spans with
  | nil =>
    intro srcStart ts pending pos b hp hs hts
    have hb : pos = b := hs
    by_cases hc : pending = [] ∧ ts = rendered.length
    · simp only [splitInvariantsAux, if_pos hc]
      obtain ⟨hc1, hc2⟩ := hc
      rw [hc1] at hp
      have h0 : srcStart = pos := hp
      exact ⟨by omega, hc2⟩
    · simp only [splitInvariantsAux, if_neg hc]
      have hlen : pos = srcStart + spansLen pending := spansTile_len hp
      exact ⟨rfl, rfl, ⟨by rw [← hlen]; exact hp, hts⟩,
        show srcStart + spansLen pending = b by omega, rfl⟩
  | cons sp rest ih =>
    intro srcStart ts pending pos b hp hs hts
    obtain ⟨hidx, hne, hrest⟩ := hs
    by_cases hc : sp.kind = SliceKind.literal ∧ (occList sp.raw raw).length = 1 ∧
        ((occList sp.raw rendered).filter (fun o => decide (ts ≤ o))).length = 1
    · have hm := headD_mem_of_length_one hc.2.2
      have hmem := List.mem_filter.mp hm
      have hto : ts ≤ ((occList sp.raw rendered).filter
          (fun o => decide (ts ≤ o))).headD 0 := of_decide_eq_true hmem.2
      have hocc := (mem_occList _ _ _).mp hmem.1
      have holen := hocc.2
      have hchain := ih (sp.sourceIdx + sp.raw.length)
        (((occList sp.raw rendered).filter (fun o => decide (ts ≤ o))).headD 0 +
          sp.raw.length) [] (pos + sp.raw.length) b
        (show spansTile (sp.sourceIdx + sp.raw.length) []
          (pos + sp.raw.length) by rw [hidx]; exact rfl) hrest (by omega)
      by_cases hskip : pending = [] ∧
          ts = ((occList sp.raw rendered).filter (fun o => decide (ts ≤ o))).headD 0
      · simp only [splitInvariantsAux, if_pos hc, if_pos hskip, List.nil_append]
        obtain ⟨hsk1, hsk2⟩ := hskip
        rw [hsk1] at hp
        have h0 : srcStart = pos := hp
        refine ⟨show sp.sourceIdx = srcStart by omega, hsk2.symm,
          ⟨⟨rfl, hne, rfl⟩, Nat.le_add_right _ _⟩, ?_⟩
        exact hchain
      · simp only [splitInvariantsAux, if_pos hc, if_neg hskip, List.cons_append,
          List.nil_append]
        refine ⟨rfl, rfl,
          ⟨show spansTile srcStart pending sp.sourceIdx by rw [hidx]; exact hp,
            hto⟩, rfl, rfl,
          ⟨⟨rfl, hne, rfl⟩, Nat.le_add_right _ _⟩, ?_⟩
        exact hchain
    · simp only [splitInvariantsAux, if_neg hc]
      exact ih srcStart ts (pending ++ [sp]) (pos + sp.raw.length) b
        (spansTile_snoc hp hidx hne) hrest hts

theorem splitInvariants_chain (raw rendered : List Char)
    (spans : List RawFileSlice) (h : spansTile 0 spans raw.length) :
    fragChain 0 0 (splitInvariants raw rendered spans)
      raw.length rendered.length :=
  splitInvariantsAux_chain raw rendered spans 0 0 [] 0 raw.length rfl h
    (Nat.zero_le _)

theorem processAlignment_covers (raw rendered : List Char)
    (spans : List RawFileSlice) (h : spansTile 0 spans raw.length) :
    chainCovers 0 0 (processAlignment raw rendered spans)
      raw.length rendered.length :=
  resolverCovers rendered _ _ _ _ _ (splitInvariants_chain raw rendered spans h)

/-! ## Theorems: block markers are zero rendered width -/

theorem litChars_mem_kind {cs : List Char} :
    ∀ {s t tStop : Nat} {sl : TemplatedFileSlice},
      sl ∈ litChars cs s t tStop → sl.kind = SliceKind.literal := by
  induction cs with
  | nil => intro s t tStop sl h; simp [litChars] at h
  | cons c cs ih =>
    intro s t tStop sl h
    rw [litChars] at h
    split at h <;>
    · rcases List.mem_cons.mp h with rfl | h2
      · rfl
      · exact ih h2

theorem simpleKind_ne_block (k : SliceKind) :
    simpleKind k ≠ SliceKind.blockStart ∧ simpleKind k ≠ SliceKind.blockEnd := by
  cases k <;> simp [simpleKind]

theorem coalesceKind_ne_block (spans : List RawFileSlice) :
    coalesceKind spans ≠ SliceKind.blockStart ∧
      coalesceKind spans ≠ SliceKind.blockEnd := by
  unfold coalesceKind
  split <;> simp

theorem coalesceWalk_block {spans : List RawFileSlice} :
    ∀ {s t sStop tStop : Nat} {sl : TemplatedFileSlice},
      sl ∈ coalesceWalk spans s t sStop tStop →
      sl.kind = SliceKind.blockStart ∨ sl.kind = SliceKind.blockEnd →
      sl.templatedSlice.stop = sl.templatedSlice.start := by
  induction spans with
  | nil =>
    intro s t sStop tStop sl h hk
    rw [coalesceWalk] at h
    split at h
    · rw [List.mem_singleton] at h
      subst h
      rcases hk with hk | hk <;> exact SliceKind.noConfusion hk
    · simp at h
  | cons sp rest ih =>
    intro s t sStop tStop sl h hk
    cases hkind : sp.kind with
    | blockStart =>
      simp only [coalesceWalk, hkind] at h
      rcases List.mem_cons.mp h with rfl | h2
      · rfl
      · exact ih h2 hk
    | blockEnd =>
      simp only [coalesceWalk, hkind] at h
      rcases List.mem_cons.mp h with rfl | h2
      · rfl
      · exact ih h2 hk
    | comment =>
      simp only [coalesceWalk, hkind] at h
      rcases List.mem_cons.mp h with rfl | h2
      · rfl
      · exact ih h2 hk
    | literal =>
      simp only [coalesceWalk, hkind] at h
      rcases List.mem_append.mp h with h2 | h2
      · have hl := litChars_mem_kind h2
        rcases hk with hk | hk <;> rw [hl] at hk <;> exact SliceKind.noConfusion hk
      · exact ih h2 hk
    | templated =>
      simp only [coalesceWalk, hkind] at h
      split at h <;>
      · rcases List.mem_cons.mp h with rfl | h2
        · rcases hk with hk | hk <;> exact SliceKind.noConfusion hk
        · exact ih h2 hk
    | escaped =>
      simp only [coalesceWalk, hkind] at h
      split at h <;>
      · rcases List.mem_cons.mp h with rfl | h2
        · rcases hk with hk | hk <;> exact SliceKind.noConfusion hk
        · exact ih h2 hk

theorem trimHead_block (str : List Char) :
    ∀ (spans : List RawFileSlice) (ss ts : Rng) {sl : TemplatedFileSlice},
      sl ∈ (trimHead str spans ss ts).1 →
      sl.kind = SliceKind.blockStart ∨ sl.kind = SliceKind.blockEnd →
      sl.templatedSlice.stop = sl.templatedSlice.start := by
  intro spans
  induction spans with
  | nil => intro ss ts sl h hk; simp [trimHead] at h
  | cons sp rest ih =>
    intro ss ts sl h hk
    cases hkind : sp.kind with
    | blockStart =>
      simp only [trimHead, hkind] at h
      rw [List.mem_singleton] at h
      subst h
      rfl
    | blockEnd =>
      simp only [trimHead, hkind] at h
      rw [List.mem_singleton] at h
      subst h
      rfl
    | comment =>
      simp only [trimHead, hkind] at h
      rcases List.mem_cons.mp h with rfl | h2
      · rfl
      · exact ih _ _ h2 hk
    | literal =>
      by_cases hc : ts.start + sp.raw.length ≤ ts.stop ∧
          (str.drop ts.start).take sp.raw.length = sp.raw
      · simp only [trimHead, hkind, if_pos hc] at h
        rcases List.mem_cons.mp h with rfl | h2
        · rcases hk with hk | hk <;> exact SliceKind.noConfusion hk
        · exact ih _ _ h2 hk
      · simp only [trimHead, hkind, if_neg hc] at h
        simp at h
    | templated =>
      simp only [trimHead, hkind] at h
      simp at h
    | escaped =>
      simp only [trimHead, hkind] at h
      simp at h

theorem trimTailAux_block (str : List Char) :
    ∀ (rev : List RawFileSlice) (ss ts : Rng) {sl : TemplatedFileSlice},
      sl ∈ (trimTailAux str rev ss ts).1 →
      sl.kind = SliceKind.blockStart ∨ sl.kind = SliceKind.blockEnd →
      sl.templatedSlice.stop = sl.templatedSlice.start := by
  intro rev
  induction rev with
  | nil => intro ss ts sl h hk; simp [trimTailAux] at h
  | cons sp rest ih =>
    intro ss ts sl h hk
    cases hkind : sp.kind with
    | blockStart =>
      simp only [trimTailAux, hkind] at h
      rw [List.mem_singleton] at h
      subst h
      rfl
    | blockEnd =>
      simp only [trimTailAux, hkind] at h
      rw [List.mem_singleton] at h
      subst h
      rfl
    | comment =>
      simp only [trimTailAux, hkind] at h
      rcases List.mem_cons.mp h with rfl | h2
      · rfl
      · exact ih _ _ h2 hk
    | literal =>
      by_cases hc : ts.start + sp.raw.length ≤ ts.stop ∧
          (str.drop (ts.stop - sp.raw.length)).take sp.raw.length = sp.raw
      · simp only [trimTailAux, hkind, if_pos hc] at h
        rcases List.mem_cons.mp h with rfl | h2
        · rcases hk with hk | hk <;> exact SliceKind.noConfusion hk
        · exact ih _ _ h2 hk
      · simp only [trimTailAux, hkind, if_neg hc] at h
        simp at h
    | templated =>
      simp only [trimTailAux, hkind] at h
      simp at h
    | escaped =>
      simp only [trimTailAux, hkind] at h
      simp at h

theorem trimTail_block (str : List Char) (buf : List RawFileSlice) (ss ts : Rng)
    {sl : TemplatedFileSlice} (h : sl ∈ (trimTail str buf ss ts).1)
    (hk : sl.kind = SliceKind.blockStart ∨ sl.kind = SliceKind.blockEnd) :
    sl.templatedSlice.stop = sl.templatedSlice.start := by
  simp only [trimTail, List.mem_reverse] at h
  exact trimTailAux_block str buf.reverse ss ts h hk

theorem resolveCompound_block :
    ∀ (fuel : Nat) (str : List Char) (spans : List RawFileSlice) (ss ts : Rng)
      {sl : TemplatedFileSlice},
      sl ∈ resolveCompound fuel str spans ss ts →
      sl.kind = SliceKind.blockStart ∨ sl.kind = SliceKind.blockEnd →
      sl.templatedSlice.stop = sl.templatedSlice.start := by
  intro fuel
  induction fuel with
  | zero =>
    intro str spans ss ts sl h hk
    exact coalesceWalk_block h hk
  | succ fuel ih =>
    intro str spans ss ts sl h hk
    rcases hh : trimHead str spans ss ts with ⟨hd, ss1, ts1, buf1⟩
    rcases ht : trimTail str buf1 ss1 ts1 with ⟨tl, ss2, ts2, buf2⟩
    rcases buf2 with _ | ⟨sp0, _ | ⟨sp1, more⟩⟩
    · simp only [resolveCompound, hh, ht] at h
      rcases List.mem_append.mp h with h2 | h2
      rcases List.mem_append.mp h2 with h3 | h3
      · exact trimHead_block str spans ss ts (by rw [hh]; exact h3) hk
      · split at h3
        · rw [List.mem_singleton] at h3
          subst h3
          rcases hk with hk | hk <;> exact SliceKind.noConfusion hk
        · simp at h3
      · exact trimTail_block str buf1 ss1 ts1 (by rw [ht]; exact h2) hk
    · simp only [resolveCompound, hh, ht] at h
      rcases List.mem_append.mp h with h2 | h2
      rcases List.mem_append.mp h2 with h3 | h3
      · exact trimHead_block str spans ss ts (by rw [hh]; exact h3) hk
      · rw [List.mem_singleton] at h3
        subst h3
        rcases simpleKind_ne_block sp0.kind with ⟨n1, n2⟩
        rcases hk with hk | hk
        · exact absurd hk n1
        · exact absurd hk n2
      · exact trimTail_block str buf1 ss1 ts1 (by rw [ht]; exact h2) hk
    · rcases hfa : findAnchor str (sp0 :: sp1 :: more) ts2 with _ | ⟨⟨bef, a, aft, off⟩⟩
      · simp only [resolveCompound, hh, ht, hfa] at h
        rcases List.mem_append.mp h with h2 | h2
        rcases List.mem_append.mp h2 with h3 | h3
        · exact trimHead_block str spans ss ts (by rw [hh]; exact h3) hk
        · exact coalesceWalk_block h3 hk
        · exact trimTail_block str buf1 ss1 ts1 (by rw [ht]; exact h2) hk
      · simp only [resolveCompound, hh, ht, hfa] at h
        rcases List.mem_append.mp h with h2 | h2
        rcases List.mem_append.mp h2 with h3 | h3
        · exact trimHead_block str spans ss ts (by rw [hh]; exact h3) hk
        · rcases List.mem_append.mp h3 with h4 | h4
          · exact ih str bef _ _ h4 hk
          · rcases List.mem_cons.mp h4 with rfl | h5
            · rcases hk with hk | hk <;> exact SliceKind.noConfusion hk
            · exact ih str aft _ _ h5 hk
        · exact trimTail_block str buf1 ss1 ts1 (by rw [ht]; exact h2) hk

theorem resolveFragment_block (str : List Char) (f : IntermediateFileSlice)
    {sl : TemplatedFileSlice} (h : sl ∈ resolveFragment str f)
    (hk : sl.kind = SliceKind.blockStart ∨ sl.kind = SliceKind.blockEnd) :
    sl.templatedSlice.stop = sl.templatedSlice.start := by
  cases hres : f.resolution with
  | invariant =>
    simp only [resolveFragment, hres] at h
    rw [List.mem_singleton] at h
    subst h
    rcases hk with hk | hk <;> exact SliceKind.noConfusion hk
  | compound =>
    simp only [resolveFragment, hres] at h
    split at h
    · rw [List.mem_singleton] at h
      subst h
      rcases coalesceKind_ne_block f.sliceBuffer with ⟨n1, n2⟩
      rcases hk with hk | hk
      · exact absurd hk n1
      · exact absurd hk n2
    · exact resolveCompound_block _ str _ _ _ h hk
  | simple =>
    simp only [resolveFragment, hres] at h
    split at h
    · rw [List.mem_singleton] at h
      subst h
      rcases coalesceKind_ne_block f.sliceBuffer with ⟨n1, n2⟩
      rcases hk with hk | hk
      · exact absurd hk n1
      · exact absurd hk n2
    · exact resolveCompound_block _ str _ _ _ h hk

theorem splitUniquesCoalesceRest_block (str : List Char) :
    ∀ (frags : List IntermediateFileSlice) {sl : TemplatedFileSlice},
      sl ∈ splitUniquesCoalesceRest str frags →
      sl.kind = SliceKind.blockStart ∨ sl.kind = SliceKind.blockEnd →
      sl.templatedSlice.stop = sl.templatedSlice.start := by
  intro frags
  induction frags with
  | nil => intro sl h hk; simp [splitUniquesCoalesceRest] at h
  | cons f rest ih =>
    intro sl h hk
    simp only [splitUniquesCoalesceRest] at h
    rcases List.mem_append.mp h with h2 | h2
    · exact resolveFragment_block str f h2 hk
    · exact ih h2 hk

/-! ## Theorems: undefined-set helpers -/

theorem addName_nodup {s : List String} {n : String} (h : s.Nodup) :
    (addName n s).Nodup := by
  by_cases hm : n ∈ s
  · simpa [addName, hm] using h
  · simp [addName, hm, List.nodup_append, h]

theorem addName_count {s : List String} {n : String} (h : s.Nodup) :
    (addName n s).count n = 1 := by
  by_cases hm : n ∈ s
  · simp only [addName, if_pos hm]
    exact List.count_eq_one_of_mem h hm
  · simp only [addName, if_neg hm]
    rw [List.count_append]
    have h0 : s.count n = 0 := by
      rw [List.count_eq_zero]
      exact hm
    rw [h0]
    simp

/-! ## Claim theorems -/

/-- C1: for every well-formed input (raw text, raw spans tiling it, rendered
text), the output mapping-slice list of the alignment pipeline is totally
covering and contiguous on both axes: consecutive slices abut on the source
and rendered axes, the source ranges cover exactly `[0, |raw|)` and the
rendered ranges cover exactly `[0, |rendered|)`. -/
theorem claim_alignment_total_coverage (raw rendered : List Char)
    (spans : List RawFileSlice) (h : spansTile 0 spans raw.length) :
    chainCovers 0 0 (processAlignment raw rendered spans)
      raw.length rendered.length :=
  processAlignment_covers raw rendered spans h

theorem claim_alignment_total_coverage_witness :
    spansTile 0 (sliceTemplate "foo{x}bar".toList) "foo{x}bar".toList.length ∧
      chainCovers 0 0
        (processAlignment "foo{x}bar".toList "fooXYbar".toList
          (sliceTemplate "foo{x}bar".toList))
        "foo{x}bar".toList.length "fooXYbar".toList.length :=
  ⟨by decide, claim_alignment_total_coverage _ _ _ (by decide)⟩

/-- C2: the Compound Resolver (`_split_uniques_coalesce_rest`) terminates on
every input — it is a total Lean function with recursion depth bounded by
the span count — and on every well-formed fragment chain (including the
regression fragment of two templated spans separated by the ambiguous
literal `" , "`) it emits a valid slice list: contiguous on both axes and
covering the input exactly, never raising. -/
theorem claim_resolver_terminates_total (str : List Char)
    (frags : List IntermediateFileSlice) (s t s' t' : Nat)
    (h : fragChain s t frags s' t') :
    chainCovers s t (splitUniquesCoalesceRest str frags) s' t' :=
  resolverCovers str frags s t s' t' h

theorem claim_resolver_terminates_total_witness :
    fragChain 0 0
      [⟨Resolution.compound, ⟨0, 13⟩, ⟨0, 9⟩,
        [⟨"{foo}".toList, SliceKind.templated, 0⟩,
          ⟨" , ".toList, SliceKind.literal, 5⟩,
          ⟨"{bar}".toList, SliceKind.templated, 8⟩]⟩] 13 9 ∧
      chainCovers 0 0
        (splitUniquesCoalesceRest "foo , bar".toList
          [⟨Resolution.compound, ⟨0, 13⟩, ⟨0, 9⟩,
            [⟨"{foo}".toList, SliceKind.templated, 0⟩,
              ⟨" , ".toList, SliceKind.literal, 5⟩,
              ⟨"{bar}".toList, SliceKind.templated, 8⟩]⟩]) 13 9 :=
  ⟨by decide, claim_resolver_terminates_total _ _ _ _ _ _ (by decide)⟩

/-- C3: every mapping slice of kind `blockStart`/`blockEnd` emitted by the
alignment pipeline has a rendered range of length zero (block directives
contribute no rendered characters themselves). -/
theorem claim_block_zero_width (raw rendered : List Char)
    (spans : List RawFileSlice) (sl : TemplatedFileSlice)
    (hmem : sl ∈ processAlignment raw rendered spans)
    (hk : sl.kind = SliceKind.blockStart ∨ sl.kind = SliceKind.blockEnd) :
    sl.templatedSlice.stop = sl.templatedSlice.start :=
  splitUniquesCoalesceRest_block rendered _ hmem hk

theorem claim_block_zero_width_witness :
    ((⟨SliceKind.blockStart, ⟨5, 12⟩, ⟨2, 2⟩⟩ : TemplatedFileSlice) ∈
        processAlignment "aa{x}{{for}}{y}bb".toList "aaZZbb".toList
          [⟨"aa".toList, SliceKind.literal, 0⟩,
            ⟨"{x}".toList, SliceKind.templated, 2⟩,
            ⟨"{{for}}".toList, SliceKind.blockStart, 5⟩,
            ⟨"{y}".toList, SliceKind.templated, 12⟩,
            ⟨"bb".toList, SliceKind.literal, 15⟩] ∧
      ((⟨SliceKind.blockStart, ⟨5, 12⟩, ⟨2, 2⟩⟩ : TemplatedFileSlice).kind =
          SliceKind.blockStart ∨
        (⟨SliceKind.blockStart, ⟨5, 12⟩, ⟨2, 2⟩⟩ : TemplatedFileSlice).kind =
          SliceKind.blockEnd)) ∧
      (⟨SliceKind.blockStart, ⟨5, 12⟩, ⟨2, 2⟩⟩ :
          TemplatedFileSlice).templatedSlice.stop =
        (⟨SliceKind.blockStart, ⟨5, 12⟩, ⟨2, 2⟩⟩ :
          TemplatedFileSlice).templatedSlice.start :=
  ⟨⟨by decide, Or.inl rfl⟩,
    claim_block_zero_width "aa{x}{{for}}{y}bb".toList "aaZZbb".toList
      [⟨"aa".toList, SliceKind.literal, 0⟩,
        ⟨"{x}".toList, SliceKind.templated, 2⟩,
        ⟨"{{for}}".toList, SliceKind.blockStart, 5⟩,
        ⟨"{y}".toList, SliceKind.templated, 12⟩,
        ⟨"bb".toList, SliceKind.literal, 15⟩]
      ⟨SliceKind.blockStart, ⟨5, 12⟩, ⟨2, 2⟩⟩ (by decide) (Or.inl rfl)⟩

/-- C4: the Boundary Trimmer never trims past a `blockStart`/`blockEnd`
span: when the first (for head trimming) or last (for tail trimming, whose
worklist is the reversed buffer) remaining raw span is a block marker, the
marker is emitted as a zero-rendered-width slice attached to that end and
trimming stops there — the remaining spans (`rest`) are returned untouched,
even if the literal beyond the marker would also match. -/
theorem claim_trim_stops_at_block (str : List Char) (sp : RawFileSlice)
    (rest : List RawFileSlice) (ss ts : Rng)
    (hk : sp.kind = SliceKind.blockStart ∨ sp.kind = SliceKind.blockEnd) :
    trimHead str (sp :: rest) ss ts =
      ([⟨sp.kind, ⟨ss.start, ss.start + sp.raw.length⟩, ⟨ts.start, ts.start⟩⟩],
        ⟨ss.start + sp.raw.length, ss.stop⟩, ts, rest) ∧
    trimTailAux str (sp :: rest) ss ts =
      ([⟨sp.kind, ⟨sp.sourceIdx, ss.stop⟩, ⟨ts.stop, ts.stop⟩⟩],
        ⟨ss.start, sp.sourceIdx⟩, ts, rest) := by
  rcases hk with hk | hk <;> exact ⟨by simp [trimHead, hk], by simp [trimTailAux, hk]⟩

theorem claim_trim_stops_at_block_witness :
    ((⟨"{{for}}".toList, SliceKind.blockStart, 3⟩ : RawFileSlice).kind =
        SliceKind.blockStart ∨
      (⟨"{{for}}".toList, SliceKind.blockStart, 3⟩ : RawFileSlice).kind =
        SliceKind.blockEnd) ∧
    (trimHead "foofoofoobarfoofoobarbar".toList
        [⟨"{{for}}".toList, SliceKind.blockStart, 3⟩,
          ⟨"foo".toList, SliceKind.literal, 10⟩] ⟨3, 21⟩ ⟨3, 21⟩ =
      ([⟨SliceKind.blockStart, ⟨3, 10⟩, ⟨3, 3⟩⟩], ⟨10, 21⟩, ⟨3, 21⟩,
        [⟨"foo".toList, SliceKind.literal, 10⟩]) ∧
    trimTailAux "foofoofoobarfoofoobarbar".toList
        [⟨"{{for}}".toList, SliceKind.blockStart, 3⟩,
          ⟨"foo".toList, SliceKind.literal, 10⟩] ⟨3, 21⟩ ⟨3, 21⟩ =
      ([⟨SliceKind.blockStart, ⟨3, 21⟩, ⟨21, 21⟩⟩], ⟨3, 3⟩, ⟨3, 21⟩,
        [⟨"foo".toList, SliceKind.literal, 10⟩])) :=
  ⟨Or.inl rfl, claim_trim_stops_at_block _ _ _ _ _ (Or.inl rfl)⟩

/-- C5: `UndefinedRecorder` — stringifying an undefined name yields the empty
string and records the name exactly once into the shared set (the set stays
duplicate-free); attribute access yields a further placeholder tracking the
dotted derived name; invocation yields a placeholder tracking `name + "()"`
without recording; and the concrete render scenario "access `x`, then
`x.y`" — repeated any number of times — records exactly `["x", "x.y"]`. -/
theorem claim_undefined_recorder (s : List String) (n item : String)
    (h : s.Nodup) :
    (UndefinedRecorder.str ⟨n⟩ s).1 = "" ∧
      ((UndefinedRecorder.str ⟨n⟩ s).2).Nodup ∧
      n ∈ (UndefinedRecorder.str ⟨n⟩ s).2 ∧
      ((UndefinedRecorder.str ⟨n⟩ s).2).count n = 1 ∧
      (UndefinedRecorder.getattr ⟨n⟩ item s).1.name = n ++ "." ++ item ∧
      (UndefinedRecorder.call ⟨n⟩ s).1.name = n ++ "()" ∧
      (UndefinedRecorder.call ⟨n⟩ s).2 = s ∧
      (((UndefinedRecorder.getattr ⟨"x"⟩ "y"
            ((UndefinedRecorder.str ⟨"x"⟩ []).2)).1).str
          ((UndefinedRecorder.getattr ⟨"x"⟩ "y"
            ((UndefinedRecorder.str ⟨"x"⟩ []).2)).2)).2 = ["x", "x.y"] ∧
      (((UndefinedRecorder.getattr ⟨"x"⟩ "y"
            ((UndefinedRecorder.str ⟨"x"⟩ ["x", "x.y"]).2)).1).str
          ((UndefinedRecorder.getattr ⟨"x"⟩ "y"
            ((UndefinedRecorder.str ⟨"x"⟩ ["x", "x.y"]).2)).2)).2 = ["x", "x.y"] := by
  refine ⟨rfl, addName_nodup h, ?_, addName_count h, rfl, rfl, rfl, by decide, by decide⟩
  simp only [UndefinedRecorder.str, addName]
  split
  · assumption
  · simp

theorem claim_undefined_recorder_witness :
    (["a", "b"] : List String).Nodup ∧
      ((UndefinedRecorder.str ⟨"b"⟩ ["a", "b"]).1 = "" ∧
        ((UndefinedRecorder.str ⟨"b"⟩ ["a", "b"]).2).Nodup ∧
        "b" ∈ (UndefinedRecorder.str ⟨"b"⟩ ["a", "b"]).2 ∧
        ((UndefinedRecorder.str ⟨"b"⟩ ["a", "b"]).2).count "b" = 1 ∧
        (UndefinedRecorder.getattr ⟨"b"⟩ "c" ["a", "b"]).1.name = "b" ++ "." ++ "c" ∧
        (UndefinedRecorder.call ⟨"b"⟩ ["a", "b"]).1.name = "b" ++ "()" ∧
        (UndefinedRecorder.call ⟨"b"⟩ ["a", "b"]).2 = ["a", "b"] ∧
        (((UndefinedRecorder.getattr ⟨"x"⟩ "y"
              ((UndefinedRecorder.str ⟨"x"⟩ []).2)).1).str
            ((UndefinedRecorder.getattr ⟨"x"⟩ "y"
              ((UndefinedRecorder.str ⟨"x"⟩ []).2)).2)).2 = ["x", "x.y"] ∧
        (((UndefinedRecorder.getattr ⟨"x"⟩ "y"
              ((UndefinedRecorder.str ⟨"x"⟩ ["x", "x.y"]).2)).1).str
            ((UndefinedRecorder.getattr ⟨"x"⟩ "y"
              ((UndefinedRecorder.str ⟨"x"⟩ ["x", "x.y"]).2)).2)).2 = ["x", "x.y"]) :=
  ⟨by decide, claim_undefined_recorder ["a", "b"] "b" "c" (by decide)⟩

/-- C6: when the templating engine fails, `process` returns an error and no
mapping slices for the file: a `TemplateSyntaxError` during parsing carries
the engine's originating line number, an unrecoverable
`TemplateError`/`TypeError` during rendering carries line 1 as a sentinel;
the failure is surfaced directly (no retry). -/
theorem claim_process_render_failure (inStr : String)
    (undeclared : List String) (l : Nat) (msg : String)
    (render : RenderOutcome)
    (hfail : render = RenderOutcome.templateError msg ∨
      render = RenderOutcome.typeError msg) :
    (∃ e : SQLTemplaterError,
      process inStr (ParseOutcome.syntaxError l msg) render =
        Except.error e ∧ e.lineNo = l) ∧
    (∃ e : SQLTemplaterError,
      process inStr (ParseOutcome.ok undeclared) render =
        Except.error e ∧ e.lineNo = 1) := by
  refine ⟨⟨_, rfl, rfl⟩, ?_⟩
  rcases hfail with rfl | rfl
  · exact ⟨_, rfl, rfl⟩
  · exact ⟨_, rfl, rfl⟩

theorem claim_process_render_failure_witness :
    (RenderOutcome.templateError "boom" = RenderOutcome.templateError "boom" ∨
      RenderOutcome.templateError "boom" = RenderOutcome.typeError "boom") ∧
    ((∃ e : SQLTemplaterError,
      process "SELECT 1" (ParseOutcome.syntaxError 7 "boom")
          (RenderOutcome.templateError "boom") =
        Except.error e ∧ e.lineNo = 7) ∧
    (∃ e : SQLTemplaterError,
      process "SELECT 1" (ParseOutcome.ok [])
          (RenderOutcome.templateError "boom") =
        Except.error e ∧ e.lineNo = 1)) :=
  ⟨Or.inl rfl,
    claim_process_render_failure "SELECT 1" [] 7 "boom" _ (Or.inl rfl)⟩

/-- C7: the Raw Lexer reconstructs its input exactly — the concatenation of
the span texts is the input string, no character dropped or added — and the
span offsets are consecutive: the first span starts at offset 0 and each
subsequent span starts where the previous one ended. -/
theorem claim_raw_lexer_reconstructs (input : List Char) :
    rawConcat (sliceTemplate input) = input ∧
      chainFrom 0 (sliceTemplate input) :=
  ⟨rawConcat_sliceTemplate input, chainFrom_withIndices 0 _⟩

/-- C8: the Occurrence Indexer returns, for each substring, the strictly
ascending list of all start offsets (overlapping occurrences included) at
which the substring occurs in the haystack; a substring with zero
occurrences maps to the empty list (because membership is exactly
occurrence), never an error. -/
theorem claim_substring_occurrences (hay : List Char)
    (needles : List (List Char)) (needle : List Char) :
    List.Pairwise (· < ·) (occList needle hay) ∧
      (∀ i : Nat, i ∈ occList needle hay ↔ occursAt needle hay i) ∧
      substringOccurrences hay needles =
        needles.map (fun n => (n, occList n hay)) :=
  ⟨occList_pairwise needle hay, fun i => mem_occList needle hay i, rfl⟩

/-- C9: lexing is idempotent — re-lexing the concatenation of the texts of
the spans produced by the Raw Lexer yields exactly the same span sequence. -/
theorem claim_lexing_idempotent (input : List Char) :
    sliceTemplate (rawConcat (sliceTemplate input)) = sliceTemplate input := by
  rw [rawConcat_sliceTemplate]

/-- C10: the `DummyUndefined` sentinel (ignore-templating mode) — `str`
yields the name with dots replaced by underscores and records nothing;
attribute access yields a new sentinel named `name + "." + item` and records
nothing; all arithmetic, division, modulo, power, shift, negation,
inversion, indexing and call operations return the sentinel unchanged; all
comparisons, boolean conversion and and/or/xor return `true`; the hash is
the constant 0. -/
theorem claim_dummy_undefined (d : DummyUndefined) (n item : String)
    (s : List String) {α : Type _} (x : α) :
    (DummyUndefined.str ⟨n⟩ s).1 = n.replace "." "_" ∧
      (DummyUndefined.str ⟨n⟩ s).2 = s ∧
      (DummyUndefined.getattr ⟨n⟩ item s).1.name = n ++ "." ++ item ∧
      (DummyUndefined.getattr ⟨n⟩ item s).2 = s ∧
      d.add x = d ∧ d.sub x = d ∧ d.mul x = d ∧ d.floordiv x = d ∧
      d.truediv x = d ∧ d.mod x = d ∧ d.pow x = d ∧ d.pos = d ∧ d.neg = d ∧
      d.lshift x = d ∧ d.rshift x = d ∧ d.getitem x = d ∧ d.invert = d ∧
      d.call x = d ∧
      d.eq x = true ∧ d.ne x = true ∧ d.lt x = true ∧ d.le x = true ∧
      d.ge x = true ∧ d.gt x = true ∧ d.bool = true ∧ d.and x = true ∧
      d.or x = true ∧ d.xor x = true ∧
      d.hash = 0 ∧ d.iter = [d] :=
  ⟨rfl, rfl, rfl, rfl, rfl, rfl, rfl, rfl, rfl, rfl, rfl, rfl, rfl, rfl,
    rfl, rfl, rfl, rfl, rfl, rfl, rfl, rfl, rfl, rfl, rfl, rfl, rfl, rfl,
    rfl, rfl⟩
